import Mathlib

/-!
Shallow embedding of the Rich-Text-Editor document model and its
selection-scoped formatting operations, translated from
src/richtext-editor.js (the current engine) and, where a claim concerns
them, the legacy engine versions shipped in the same repository.

Modelling conventions, used consistently below:

* Every item the source ever stores in `this.content` has `type === 'text'`,
  so the `type` tag is dropped: an item is a `Run` with a `content`
  character list, a class attribute and a style object.  A run with empty
  `content` is the break-marker sentinel (a `<br>`).
* A class attribute string is represented by its whitespace-split token
  list (`List String`).  A missing attribute and a whitespace-only string
  both split to `[]`, matching the source's `toClassSet` which trims,
  splits on whitespace and filters empty tokens.
* A style object is an association list in key-insertion order
  (`List (String × String)`).  A missing `styles` field and an empty
  object are both `[]`; the source never stores an empty styles object
  (`makeItem` only sets `styles` when `Object.keys(...).length` is
  positive).  The source compares style objects with `JSON.stringify`
  equality, which on such objects is exactly association-list equality.
* DOM selection resolution (`getCaretIndex`, `getCaretStartIndex`,
  `_getSelectedLineIndexes`) is display-surface code that walks the
  rendered tree; the operations below take the resolved linear range
  `(selectionStart, selectionEnd)` and, where the source consults
  `_getSelectedLineIndexes`, the resolved selected line indexes, as
  explicit parameters.  The linear index convention is the source's:
  each line contributes +1 for its `DIV`, each break marker +1 for its
  `BR`, each content character +1.
-/

/-- Style objects: association lists in key-insertion order. -/
abbrev Styles := List (String × String)

/-- One content item `{type:'text', content, className?, styles?}` of
src/richtext-editor.js.  Empty `content` is the break-marker sentinel. -/
structure Run where
  content : List Char
  className : List String
  styles : Styles
deriving DecidableEq, Repr, Inhabited

/-- One line of the content model: an item array plus the optional
`_lineClassName` / `_lineStyles` metadata the source hangs off the array. -/
structure Line where
  runs : List Run
  lineClassName : List String
  lineStyles : Styles
deriving DecidableEq, Repr, Inhabited

/-- The document model `this.content`: an array of lines. -/
abbrev Doc := List Line

/-- Insertion-order deduplication, as performed by a JS `Set`. -/
def dedupGo (seen : List String) : List String → List String
  | [] => []
  | x :: xs => if x ∈ seen then dedupGo seen xs else x :: dedupGo (x :: seen) xs

/-- `toClassSet`: `new Set(String(cls||'').trim().split(/\s+/).filter(Boolean))`.
On the token-list representation this drops empty tokens and deduplicates,
keeping first occurrences. -/
def toClassSet (cls : List String) : List String :=
  dedupGo [] (cls.filter (fun t => t ≠ ""))

/-- Lexicographic comparison on character lists, by code point: the order
of the JS default `Array.sort()` string comparator. -/
def charListLt : List Char → List Char → Bool
  | [], [] => false
  | [], _ :: _ => true
  | _ :: _, [] => false
  | a :: as, b :: bs => a.toNat < b.toNat || (a == b && charListLt as bs)

/-- `a ≤ b` for the JS string sort. -/
def strLeB (a b : String) : Bool := !(charListLt b.toList a.toList)

/-- Insert a token into a sorted token list. -/
def sortInsert (x : String) : List String → List String
  | [] => [x]
  | y :: ys => if strLeB x y then x :: y :: ys else y :: sortInsert x ys

/-- Insertion sort with the JS string comparator. -/
def sortTokens : List String → List String
  | [] => []
  | x :: xs => sortInsert x (sortTokens xs)

/-- `canonClass`: `Array.from(toClassSet(cls)).sort().join(' ')`, kept as the
sorted deduplicated token list. -/
def canonClass (cls : List String) : List String :=
  sortTokens (toClassSet cls)

/-- `mergeClasses(orig, add)`: start from `toClassSet(orig)` and `Set.add`
each token of `toClassSet(add)`, which appends unseen tokens in order. -/
def mergeClasses (orig add : List String) : List String :=
  toClassSet orig ++ (toClassSet add).filter (fun t => t ∉ toClassSet orig)

/-- `removeClasses(orig, remove)`: delete the tokens of `remove` from the
set built from `orig`. -/
def removeClasses (orig remove : List String) : List String :=
  (toClassSet orig).filter (fun t => t ∉ toClassSet remove)

/-- Object spread `{ ...a, ...b }` on style objects: keys of `a` in order
with values overridden by `b` on collision, then the keys of `b` not in
`a`, in `b`'s order. -/
def spreadStyles (a b : Styles) : Styles :=
  a.map (fun kv => match b.find? (fun kv2 => kv2.1 == kv.1) with
    | some kv2 => (kv.1, kv2.2)
    | none => kv)
  ++ b.filter (fun kv2 => a.all (fun kv => kv.1 ≠ kv2.1))

/-- `makeItem(text, cls, stl)` of `applyFormat`/`unapplyFormat`: stores the
canonicalized class (absent when it canonicalizes to nothing) and the
styles (absent when empty); absence is the empty list here. -/
def makeItem (text : List Char) (cls : List String) (stl : Styles) : Run :=
  { content := text, className := canonClass cls, styles := stl }

/-- The merge condition of `mergeAdjacent`: both items are text (always
true in this model), both non-empty, same canonical class, and
`sameStyles` (JSON.stringify equality, i.e. list equality here). -/
def canMerge (a b : Run) : Bool :=
  !a.content.isEmpty && !b.content.isEmpty &&
    canonClass a.className == canonClass b.className && a.styles == b.styles

/-- The body of `mergeAdjacent`'s loop: `cur` is the last element of `out`
(the element new items are merged into); each further item either extends
it or is appended and becomes the new last element. -/
def mergeAdjGo (cur : Run) : List Run → List Run
  | [] => [cur]
  | b :: rest =>
    if canMerge cur b then
      mergeAdjGo { content := cur.content ++ b.content,
                   className := cur.className, styles := cur.styles } rest
    else cur :: mergeAdjGo b rest

/-- `mergeAdjacent(arr)` as defined identically inside `applyFormat`,
`unapplyFormat` and `unapplyAllFormat`. -/
def mergeAdjacent : List Run → List Run
  | [] => []
  | a :: rest => mergeAdjGo a rest

/-- The per-item `while (remaining > 0)` loop shared by `applyFormat` and
`unapplyFormat`, in closed form.  The loop walks one text item (placed at
linear index `idx`), emitting in order: the part before the selection (at
most one piece, when `selectionStart > chunkStart`), the selected part (with
the transformed class/styles), and — via the "entirely outside" branch on
the next iteration — the part after the selection.  Each emitted piece is
non-empty; their contents concatenate to the item's text.  `origCls`/
`origStl` are the item's formatting, `midCls`/`midStl` the formatting the
operation assigns to the selected part. -/
def splitItem (s e idx : Nat) (text : List Char)
    (origCls midCls : List String) (origStl midStl : Styles) : List Run :=
  if e ≤ idx ∨ s ≥ idx + text.length then
    [makeItem text origCls origStl]
  else
    (if 0 < s - idx then [makeItem (text.take (s - idx)) origCls origStl] else [])
      ++ (if s - idx < min text.length (e - idx) then
            [makeItem ((text.drop (s - idx)).take (min text.length (e - idx) - (s - idx)))
              midCls midStl]
          else [])
      ++ (if min text.length (e - idx) < text.length then
            [makeItem (text.drop (min text.length (e - idx))) origCls origStl]
          else [])

/-- The per-line item loop shared by `applyFormat` and `unapplyFormat`:
walks the items threading the linear index `idx` (`+1` per break marker,
`+length` per text item), passing break markers through unchanged and
splitting text items around the selection.  `midFmt` computes the selected
part's class/styles from the original ones (the only point where the two
operations differ). -/
def transformRuns (s e : Nat) (midFmt : List String → Styles → List String × Styles) :
    List Run → Nat → List Run × Nat
  | [], idx => ([], idx)
  | r :: rest, idx =>
    if r.content.isEmpty then
      let out := transformRuns s e midFmt rest (idx + 1)
      (r :: out.1, out.2)
    else
      let mc := (midFmt r.className r.styles).1
      let ms := (midFmt r.className r.styles).2
      let pieces := splitItem s e idx r.content r.className mc r.styles ms
      let out := transformRuns s e midFmt rest (idx + r.content.length)
      (pieces ++ out.1, out.2)

/-- The per-document line loop shared by `applyFormat` and `unapplyFormat`:
`idx += 1` for each line's `DIV`, transform the items, `mergeAdjacent`, and
carry the line-level metadata over to the rebuilt line. -/
def transformDoc (s e : Nat) (midFmt : List String → Styles → List String × Styles) :
    List Line → Nat → List Line
  | [], _ => []
  | l :: rest, idx =>
    let out := transformRuns s e midFmt l.runs (idx + 1)
    { runs := mergeAdjacent out.1,
      lineClassName := l.lineClassName, lineStyles := l.lineStyles }
      :: transformDoc s e midFmt rest out.2

/-- `applyFormat`'s formatting of the selected part: merge the new class
tokens when a class argument is given (`className ? mergeClasses(...) :
originalClass`) and shallow-merge the styles when any are given. -/
def applyMid (cls : List String) (stl : Styles) (origCls : List String)
    (origStl : Styles) : List String × Styles :=
  (if cls.isEmpty then origCls else mergeClasses origCls cls,
   if stl.isEmpty then origStl else spreadStyles origStl stl)

/-- `unapplyFormat`'s formatting of the selected part: with a token given,
remove exactly those class tokens and keep the original styles; with no
token (`removeAll`), drop both class and styles. -/
def unapplyMid (cls : List String) (origCls : List String) (origStl : Styles) :
    List String × Styles :=
  if cls.isEmpty then ([], []) else (removeClasses origCls cls, origStl)

/-- `applyFormat(className, styles)` (src/richtext-editor.js:167): normalize
the selection (swap, no-op when collapsed) and rewrite the document.  The
selection is the linear range resolved from the DOM. -/
def applyFormat (d : Doc) (s0 e0 : Nat) (cls : List String) (stl : Styles) : Doc :=
  if s0 = e0 then d
  else transformDoc (min s0 e0) (max s0 e0) (applyMid cls stl) d 0

/-- `unapplyFormat(className)` (src/richtext-editor.js:325): normalize the
selection (swap, no-op when collapsed) and rewrite the document; an empty
class argument means `removeAll`. -/
def unapplyFormat (d : Doc) (s0 e0 : Nat) (cls : List String) : Doc :=
  if s0 = e0 then d
  else transformDoc (min s0 e0) (max s0 e0) (unapplyMid cls) d 0

/-- The item rewrite of `unapplyAllFormat` (src/richtext-editor.js:463):
break markers are returned as-is; otherwise with no token everything is
cleared, and with a token the class tokens are removed and the styles
kept. -/
def unapplyAllRuns (cls : List String) (rs : List Run) : List Run :=
  rs.map (fun r =>
    if r.content.isEmpty then r
    else if cls.isEmpty then { content := r.content, className := [], styles := [] }
    else { content := r.content, className := canonClass (removeClasses r.className cls),
           styles := r.styles })

/-- `unapplyAllFormat(className)`: rewrite every line of the whole document,
ignoring the selection, then `mergeAdjacent`, preserving line metadata. -/
def unapplyAllFormat (d : Doc) (cls : List String) : Doc :=
  d.map (fun l =>
    { runs := mergeAdjacent (unapplyAllRuns cls l.runs),
      lineClassName := l.lineClassName, lineStyles := l.lineStyles })

/-- `unapplyAllFormat` with its selection handling: the source reads the
selection range before mutating and calls `setSelection(start, end)` with
the same values afterwards, so the selection passes through unchanged. -/
def unapplyAllFormatOp (d : Doc) (sel : Nat × Nat) (cls : List String) :
    Doc × (Nat × Nat) :=
  (unapplyAllFormat d cls, sel)

/-- The `lineIndexes.forEach` mutation pattern of the line-attribute
operations: apply `f` to each line whose index is selected, leave the
others; out-of-range selected indexes touch nothing. -/
def mapLines (lineIdxs : List Nat) (f : Line → Line) : List Line → Nat → List Line
  | [], _ => []
  | l :: rest, i =>
    (if lineIdxs.contains i then f l else l) :: mapLines lineIdxs f rest (i + 1)

/-- `applyFormatOnLine(className, styles)` (src/richtext-editor.js:543):
no-op on an empty class; otherwise merge the class tokens into each
selected line's `_lineClassName` (canonicalized) and shallow-merge the
styles into `_lineStyles` when any are given. -/
def applyFormatOnLine (d : Doc) (lineIdxs : List Nat) (cls : List String)
    (stl : Styles) : Doc :=
  if cls.isEmpty then d
  else
    mapLines lineIdxs (fun l =>
      { runs := l.runs,
        lineClassName := canonClass (mergeClasses l.lineClassName cls),
        lineStyles := if stl.isEmpty then l.lineStyles
                      else spreadStyles l.lineStyles stl }) d 0

/-- `removeFormatFromLine(className)` (src/richtext-editor.js:596): with an
empty class delete both line attributes; otherwise remove the tokens from
`_lineClassName`. -/
def removeFormatFromLine (d : Doc) (lineIdxs : List Nat) (cls : List String) : Doc :=
  if cls.isEmpty then
    mapLines lineIdxs (fun l =>
      { runs := l.runs, lineClassName := [], lineStyles := [] }) d 0
  else
    mapLines lineIdxs (fun l =>
      { runs := l.runs,
        lineClassName := canonClass (removeClasses l.lineClassName cls),
        lineStyles := l.lineStyles }) d 0

/-- `lineHasFormat(className)` (src/richtext-editor.js:633): false on an
empty/whitespace class or an empty selected-line set, else true exactly when
every selected line's `_lineClassName` contains all required tokens (a
missing line contributes no tokens). -/
def lineHasFormat (d : Doc) (lineIdxs : List Nat) (cls : List String) : Bool :=
  let required := toClassSet cls
  if required.isEmpty then false
  else if lineIdxs.isEmpty then false
  else lineIdxs.all (fun li =>
    let hv := toClassSet ((d.get? li).elim [] Line.lineClassName)
    required.all (fun t => hv.contains t))

/-- `toggleFormat(className, styles)` (src/richtext-editor.js:137): the
source dispatches on `this.lineHasFormat(className)` — the LINE-attribute
query — not on the run-level `hasFormat`. -/
def toggleFormat (d : Doc) (s0 e0 : Nat) (lineIdxs : List Nat)
    (cls : List String) (stl : Styles) : Doc :=
  if lineHasFormat d lineIdxs cls then unapplyFormat d s0 e0 cls
  else applyFormat d s0 e0 cls stl

/-- `toggleFormatOnLine(className, styles)` (src/richtext-editor.js:152):
the source calls `this.lineHasFormat()` with NO argument, modelled as the
empty token list. -/
def toggleFormatOnLine (d : Doc) (lineIdxs : List Nat) (cls : List String)
    (stl : Styles) : Doc :=
  if lineHasFormat d lineIdxs [] then removeFormatFromLine d lineIdxs cls
  else applyFormatOnLine d lineIdxs cls stl

/-- The item walk of `hasFormat` (src/richtext-editor.js:1200): thread the
linear index (`+1` per break, `+length` per text item); for each text item
overlapping the selection record that text was seen and whether the item
carries all required tokens.  Returns `(idx, seenAnyText, allHave)`; the
source's early `return false` is equivalent to the conjunction `allHave`
collected here. -/
def hasFormatRuns (s e : Nat) (required : List String) :
    List Run → Nat → Nat × Bool × Bool
  | [], idx => (idx, false, true)
  | r :: rest, idx =>
    if r.content.isEmpty then hasFormatRuns s e required rest (idx + 1)
    else
      let len := r.content.length
      let ov := decide (max s idx < min e (idx + len))
      let carry := required.all (fun t => (toClassSet r.className).contains t)
      let out := hasFormatRuns s e required rest (idx + len)
      (out.1, ov || out.2.1, (!ov || carry) && out.2.2)

/-- The line walk of `hasFormat`: `idx += 1` per line `DIV`. -/
def hasFormatLines (s e : Nat) (required : List String) :
    List Line → Nat → Bool × Bool
  | [], _ => (false, true)
  | l :: rest, idx =>
    let out1 := hasFormatRuns s e required l.runs (idx + 1)
    let out2 := hasFormatLines s e required rest out1.1
    (out1.2.1 || out2.1, out1.2.2 && out2.2)

/-- `hasFormat(className)` (src/richtext-editor.js:1200): false on a
collapsed selection or an empty required token set; else true iff some
selected text was seen and every overlapping item carries all tokens. -/
def hasFormat (d : Doc) (s0 e0 : Nat) (cls : List String) : Bool :=
  let s := min s0 e0
  let e := max s0 e0
  if s = e then false
  else
    let required := toClassSet cls
    if required.isEmpty then false
    else
      let out := hasFormatLines s e required d 0
      out.1 && out.2

/-- The item walk of `includesClass` (src/richtext-editor.js:1150): true as
soon as one overlapping text item carries all required tokens. -/
def includesClassRuns (s e : Nat) (required : List String) :
    List Run → Nat → Nat × Bool
  | [], idx => (idx, false)
  | r :: rest, idx =>
    if r.content.isEmpty then includesClassRuns s e required rest (idx + 1)
    else
      let len := r.content.length
      let ov := decide (max s idx < min e (idx + len))
      let carry := required.all (fun t => (toClassSet r.className).contains t)
      let out := includesClassRuns s e required rest (idx + len)
      (out.1, (ov && carry) || out.2)

/-- The line walk of `includesClass`. -/
def includesClassLines (s e : Nat) (required : List String) :
    List Line → Nat → Bool
  | [], _ => false
  | l :: rest, idx =>
    let out1 := includesClassRuns s e required l.runs (idx + 1)
    out1.2 || includesClassLines s e required rest out1.1

/-- `includesClass(className)` (src/richtext-editor.js:1150): false on a
collapsed selection or an empty required set; else true iff any overlapping
item carries all required tokens. -/
def includesClass (d : Doc) (s0 e0 : Nat) (cls : List String) : Bool :=
  let s := min s0 e0
  let e := max s0 e0
  if s = e then false
  else
    let required := toClassSet cls
    if required.isEmpty then false
    else includesClassLines s e required d 0

/-- `setContentFromJson(json)` (src/richtext-editor.js:917): shallow
normalization of each line's items and metadata.  The source's coercions
(`String(...)`, dropping empty style objects) are the identity on
well-typed model values; crucially, NO adjacent-run merge is performed
(`combineAdjacentContent` is an unimplemented stub). -/
def setContentFromJson (json : List Line) : Doc :=
  json.map (fun l =>
    { runs := l.runs.map (fun r =>
        { content := r.content, className := r.className, styles := r.styles }),
      lineClassName := l.lineClassName, lineStyles := l.lineStyles })

/-- An inline-level DOM node, as produced by parsing markup inside a line
container: a text node, a `<span>` (with class attribute and inline style
declarations, holding its text content), or a `<br>`.  Other element kinds
are ignored by `handleInput` and are not modelled. -/
inductive INode where
  | text (s : List Char)
  | span (cls : List String) (stl : Styles) (s : List Char)
  | br
deriving DecidableEq, Repr

/-- A top-level node of a parsed markup string: either an inline node or a
`<div>` line container (class, style declarations, inline children).  The
editor's own markup nests divs only at the top level, which is the input
grammar modelled here. -/
inductive HNode where
  | inl (n : INode)
  | div (cls : List String) (stl : Styles) (children : List INode)
deriving DecidableEq, Repr

/-- `scratch.querySelectorAll('div')` over the parsed input: the div
containers in document order. -/
def collectDivs : List HNode → List (List String × Styles × List INode)
  | [] => []
  | HNode.div c s ch :: rest => (c, s, ch) :: collectDivs rest
  | HNode.inl _ :: rest => collectDivs rest

/-- The inline nodes of a top-level forest (used when the whole input is
wrapped into a single fallback div via `lineDiv.innerHTML`). -/
def asInline : List HNode → List INode
  | [] => []
  | HNode.inl n :: rest => n :: asInline rest
  | HNode.div _ _ _ :: rest => asInline rest

/-- The child-node dispatch of `handleInput` (src/richtext-editor.js:747):
a `#text` node becomes a bare item, a `span` an item carrying the span's
class and styles, a `br` an empty-content item. -/
def parseChild : INode → Run
  | INode.text s => { content := s, className := [], styles := [] }
  | INode.span cls stl s => { content := s, className := cls, styles := stl }
  | INode.br => { content := [], className := [], styles := [] }

/-- The model-building part of `handleInput` (src/richtext-editor.js:726):
one line per div of the editing surface, carrying the div's class/style as
line metadata and its recognized children as items.  No adjacent-run merge
is performed. -/
def handleInputParse (divs : List (List String × Styles × List INode)) : Doc :=
  divs.map (fun t =>
    { runs := t.2.2.map parseChild, lineClassName := t.1, lineStyles := t.2.1 })

/-- `setContentFromHTML(html)` (src/richtext-editor.js:876): if the parsed
input contains div containers they become the editing surface's lines;
otherwise the whole input is wrapped into one attribute-less div.  Then
`handleInput` parses the surface into the model. -/
def setContentFromHTML (ns : List HNode) : Doc :=
  let divs := collectDivs ns
  if divs.isEmpty then handleInputParse [([], [], asInline ns)]
  else handleInputParse divs

/-- `setContent(html)` (src/richtext-editor.js:866) is an alias of
`setContentFromHTML`. -/
def setContent (ns : List HNode) : Doc :=
  setContentFromHTML ns

/-- The constructor argument: whether the value is an `HTMLElement`,
whether it is content-editable, and whether it has an `addEventListener`
method (every `EventTarget` — so every genuine `HTMLElement` — has one; a
plain object, number or string does not).  `none` models
`null`/`undefined`. -/
structure SurfaceArg where
  isHTMLElement : Bool
  isContentEditable : Bool
  hasAddEventListener : Bool
deriving DecidableEq, Repr

/-- Whether the src/richtext-editor.js constructor (line 18) throws: it
performs no validation of its own; the only failure is the incidental
TypeError raised by `this.textarea.addEventListener(...)` at line 20 when
the argument is `null`/`undefined` or has no `addEventListener` method
(plain object, number, string).  Neither `instanceof HTMLElement` nor
editability is ever consulted. -/
def constructorThrows : Option SurfaceArg → Bool
  | none => true
  | some a => !a.hasAddEventListener

/-- Whether the legacy constructors (src/unnamed/part_001:14 and
src/unnamed/part_002) throw: `null`, a non-`HTMLElement`, or an element
without `contenteditable` is rejected with a synchronous `Error` before
any listener is attached (for a genuine `HTMLElement`,
`hasAddEventListener` is true, so validation is the only failure path). -/
def legacyConstructorThrows : Option SurfaceArg → Bool
  | none => true
  | some a => !a.isHTMLElement || !a.isContentEditable

/-- The content skeleton of one line: each break marker contributes `none`,
each content character `some c`.  Equality of skeletons says the text and
the break positions coincide. -/
def lineText : List Run → List (Option Char)
  | [] => []
  | r :: rest =>
    (if r.content.isEmpty then [none] else r.content.map some) ++ lineText rest

/-- The content skeleton of a document: line boundaries are kept as the
outer list structure. -/
def docText (d : Doc) : List (List (Option Char)) :=
  d.map (fun l => lineText l.runs)

/-- The per-character style attribution of one line: one entry per content
character (break markers carry none). -/
def stylesSeq : List Run → List Styles
  | [] => []
  | r :: rest =>
    (if r.content.isEmpty then [] else r.content.map (fun _ => r.styles)) ++ stylesSeq rest

/-- The per-character style attribution of a document. -/
def docStylesSeq (d : Doc) : List (List Styles) :=
  d.map (fun l => stylesSeq l.runs)

/-- The canonical-form check on a line's items (spec §3): no two
structurally adjacent non-sentinel runs with equal canonical class and
equal styles — i.e. no adjacent mergeable pair. -/
def canonicalRuns : List Run → Bool
  | [] => true
  | [_] => true
  | a :: b :: rest => !canMerge a b && canonicalRuns (b :: rest)

/-- The canonical-form invariant on a document. -/
def canonicalDoc (d : Doc) : Bool :=
  d.all (fun l => canonicalRuns l.runs)

/-- One slot of the linear-index coordinate space: a line's `DIV` boundary,
a break marker's `BR`, or one content character with its item's class and
styles. -/
inductive Cell where
  | lineStart : Cell
  | brk : Cell
  | ch (className : List String) (styles : Styles) (c : Char) : Cell
deriving DecidableEq, Repr

/-- The cells of one item. -/
def runCells (r : Run) : List Cell :=
  if r.content.isEmpty then [Cell.brk] else r.content.map (Cell.ch r.className r.styles)

/-- The document laid out in the linear-index coordinate space: position
`p` of this list is exactly linear index `p` in the source's caret math
(each `DIV` +1, each `BR` +1, each character +1). -/
def docCells (d : Doc) : List Cell :=
  d.flatMap (fun l => Cell.lineStart :: l.runs.flatMap runCells)

/-- Whether a cell is a content character. -/
def cellIsChar : Cell → Bool
  | Cell.ch _ _ _ => true
  | _ => false

/-- Whether a character cell carries every token of the required set
(non-character cells constrain nothing). -/
def cellCarries (required : List String) : Cell → Bool
  | Cell.ch c _ _ => required.all (fun t => (toClassSet c).contains t)
  | _ => true

/-- Some position of `cs` (placed at linear base index `base`) inside the
selection `[s, e)` holds a content character. -/
def SeenSpec (s e base : Nat) (cs : List Cell) : Prop :=
  ∃ j c, cs[j]? = some c ∧ cellIsChar c = true ∧ s ≤ base + j ∧ base + j < e

/-- Every content character of `cs` (placed at linear base index `base`)
inside the selection `[s, e)` carries all required tokens. -/
def CarrySpec (required : List String) (s e base : Nat) (cs : List Cell) : Prop :=
  ∀ j c, cs[j]? = some c → cellIsChar c = true → s ≤ base + j → base + j < e →
    cellCarries required c = true

/-- The text skeleton of an inline node — the "markup stripped" reading of
an import: the text content of text and span nodes, a break for `<br>`. -/
def inlineText : INode → List (Option Char)
  | INode.text s => s.map some
  | INode.span _ _ s => s.map some
  | INode.br => [none]

/-- Whether an inline node is a bare text node. -/
def isTextNode : INode → Bool
  | INode.text _ => true
  | _ => false

/-- Whether an inline node has non-empty text content (`<br>` counts as
non-degenerate). -/
def nodeTextNonempty : INode → Bool
  | INode.text s => !s.isEmpty
  | INode.span _ _ s => !s.isEmpty
  | INode.br => true

theorem lineText_append (xs ys : List Run) :
    lineText (xs ++ ys) = lineText xs ++ lineText ys := by
  induction xs with
  | nil => simp [lineText]
  | cons r rest ih => simp [lineText, ih]

theorem stylesSeq_append (xs ys : List Run) :
    stylesSeq (xs ++ ys) = stylesSeq xs ++ stylesSeq ys := by
  induction xs with
  | nil => simp [stylesSeq]
  | cons r rest ih => simp [stylesSeq, ih]

theorem canMerge_facts {a b : Run} (h : canMerge a b = true) :
    a.content ≠ [] ∧ b.content ≠ [] ∧
      canonClass a.className = canonClass b.className ∧ a.styles = b.styles := by
  simp only [canMerge, Bool.and_eq_true, Bool.not_eq_true', List.isEmpty_eq_false,
    beq_iff_eq] at h
  exact ⟨h.1.1.1, h.1.1.2, h.1.2, h.2⟩

theorem mergeAdjGo_lineText (l : List Run) : ∀ cur,
    lineText (mergeAdjGo cur l) = lineText (cur :: l) := by
  induction l with
  | nil => intro cur; rfl
  | cons b rest ih =>
    intro cur
    by_cases h : canMerge cur b = true
    · obtain ⟨hc, hb, -, -⟩ := canMerge_facts h
      simp only [mergeAdjGo, h, if_true]
      rw [ih]
      simp [lineText, hc, hb, List.map_append]
    · simp only [mergeAdjGo, h, if_false]
      simp [lineText, ih b]

theorem mergeAdjGo_stylesSeq (l : List Run) : ∀ cur,
    stylesSeq (mergeAdjGo cur l) = stylesSeq (cur :: l) := by
  induction l with
  | nil => intro cur; rfl
  | cons b rest ih =>
    intro cur
    by_cases h : canMerge cur b = true
    · obtain ⟨hc, hb, -, hstl⟩ := canMerge_facts h
      simp only [mergeAdjGo, h, if_true]
      rw [ih]
      have h1 : (cur.content ++ b.content).isEmpty = false := by
        simp [List.isEmpty_eq_false, hc]
      have h2 : cur.content.isEmpty = false := by simp [List.isEmpty_eq_false, hc]
      have h3 : b.content.isEmpty = false := by simp [List.isEmpty_eq_false, hb]
      simp only [stylesSeq, h1, h2, h3, Bool.false_eq_true, if_false,
        List.map_append, List.append_assoc, hstl]
    · simp only [mergeAdjGo, h, if_false]
      simp [stylesSeq, ih b]

theorem mergeAdjacent_lineText (l : List Run) :
    lineText (mergeAdjacent l) = lineText l := by
  cases l with
  | nil => rfl
  | cons a rest => exact mergeAdjGo_lineText rest a

theorem mergeAdjacent_stylesSeq (l : List Run) :
    stylesSeq (mergeAdjacent l) = stylesSeq l := by
  cases l with
  | nil => rfl
  | cons a rest => exact mergeAdjGo_stylesSeq rest a

theorem mergeAdjGo_head (l : List Run) : ∀ cur, ∃ t rest2,
    mergeAdjGo cur l =
      { content := cur.content ++ t, className := cur.className,
        styles := cur.styles } :: rest2 ∧ (cur.content = [] → t = []) := by
  induction l with
  | nil =>
    intro cur
    exact ⟨[], [], by simp [mergeAdjGo], fun _ => rfl⟩
  | cons b rest ih =>
    intro cur
    by_cases h : canMerge cur b = true
    · obtain ⟨hc, -, -, -⟩ := canMerge_facts h
      obtain ⟨t, r2, heq, -⟩ :=
        ih { content := cur.content ++ b.content, className := cur.className,
             styles := cur.styles }
      refine ⟨b.content ++ t, r2, ?_, fun hemp => absurd hemp hc⟩
      simp only [mergeAdjGo, h, if_true]
      simpa [List.append_assoc] using heq
    · exact ⟨[], mergeAdjGo b rest, by simp [mergeAdjGo, h], fun _ => rfl⟩

theorem mergeAdjGo_canonical (l : List Run) : ∀ cur,
    canonicalRuns (mergeAdjGo cur l) = true := by
  induction l with
  | nil => intro cur; rfl
  | cons b rest ih =>
    intro cur
    by_cases h : canMerge cur b = true
    · simp only [mergeAdjGo, h, if_true]
      exact ih _
    · simp only [mergeAdjGo, h, if_false]
      obtain ⟨t, r2, heq, hemp⟩ := mergeAdjGo_head rest b
      rw [heq]
      have htail : canonicalRuns
          ({ content := b.content ++ t, className := b.className,
             styles := b.styles } :: r2) = true := by
        rw [← heq]; exact ih b
      have hnm : canMerge cur
          { content := b.content ++ t, className := b.className,
            styles := b.styles } = false := by
        by_cases hb : b.content = []
        · have ht := hemp hb
          simp [canMerge, hb, ht]
        · have h1 : (b.content ++ t).isEmpty = false := by
            simp [List.isEmpty_eq_false, hb]
          have h2 : b.content.isEmpty = false := by
            simp [List.isEmpty_eq_false, hb]
          have hbt : canMerge cur
              { content := b.content ++ t, className := b.className,
                styles := b.styles } = canMerge cur b := by
            simp only [canMerge]
            rw [h1, h2]
          rw [hbt]
          exact eq_false_of_ne_true h
      simp [canonicalRuns, hnm, htail]

theorem mergeAdjGo_pres (P : List String → Styles → Prop) (l : List Run) : ∀ cur,
    P cur.className cur.styles → (∀ r ∈ l, P r.className r.styles) →
    ∀ r ∈ mergeAdjGo cur l, P r.className r.styles := by
  induction l with
  | nil =>
    intro cur hc _ r hr
    simp only [mergeAdjGo, List.mem_singleton] at hr
    subst hr; exact hc
  | cons b rest ih =>
    intro cur hc hl r hr
    by_cases h : canMerge cur b = true
    · simp only [mergeAdjGo, h, if_true] at hr
      exact ih { content := cur.content ++ b.content, className := cur.className,
                 styles := cur.styles } hc
        (fun x hx => hl x (List.mem_cons_of_mem b hx)) r hr
    · simp only [mergeAdjGo, h, if_false] at hr
      cases hr with
      | head => exact hc
      | tail _ h1 =>
        exact ih b (hl b (List.mem_cons_self b rest))
          (fun x hx => hl x (List.mem_cons_of_mem b hx)) r h1

theorem take_mid_drop {α : Type} (l : List α) (p m : Nat) :
    l.take p ++ ((l.drop p).take (m - p) ++ (l.drop p).drop (m - p)) = l := by
  rw [List.take_append_drop, List.take_append_drop]

theorem drop_sub_drop {α : Type} (l : List α) (p m : Nat) (hpm : p ≤ m) :
    (l.drop p).drop (m - p) = l.drop m := by
  rw [List.drop_drop]
  congr 1
  omega

theorem take_ne_nil {α : Type} (l : List α) (n : Nat) (h0 : 0 < n) (hl : l ≠ []) :
    l.take n ≠ [] := by
  cases l with
  | nil => exact absurd rfl hl
  | cons a as =>
    cases n with
    | zero => omega
    | succ m => simp [List.take]

theorem drop_ne_nil {α : Type} (l : List α) (n : Nat) (h : n < l.length) :
    l.drop n ≠ [] := by
  intro hnil
  have hlen := congrArg List.length hnil
  simp only [List.length_drop, List.length_nil] at hlen
  omega

theorem splitItem_flatMap_content (s e idx : Nat) (text : List Char)
    (oc mc : List String) (os ms : Styles) (hse : s < e) (hne : text ≠ []) :
    (splitItem s e idx text oc mc os ms).flatMap Run.content = text := by
  simp only [splitItem]
  by_cases hout : e ≤ idx ∨ s ≥ idx + text.length
  · rw [if_pos hout]
    simp [makeItem]
  · rw [if_neg hout]
    push_neg at hout
    obtain ⟨ho1, ho2⟩ := hout
    have hlen : 0 < text.length := List.length_pos.mpr hne
    have hpm : s - idx ≤ min text.length (e - idx) := by omega
    have hmle : min text.length (e - idx) ≤ text.length := Nat.min_le_left _ _
    have hmid : s - idx < min text.length (e - idx) := by omega
    rw [if_pos hmid]
    have key := take_mid_drop text (s - idx) (min text.length (e - idx))
    rw [drop_sub_drop text (s - idx) (min text.length (e - idx)) hpm] at key
    by_cases hpre : 0 < s - idx
    all_goals by_cases hpost : min text.length (e - idx) < text.length
    · rw [if_pos hpre, if_pos hpost]
      simpa [makeItem, List.append_assoc] using key
    · rw [if_pos hpre, if_neg hpost]
      have hm : min text.length (e - idx) = text.length := by omega
      rw [hm] at key ⊢
      simpa [makeItem, List.drop_length] using key
    · rw [if_neg hpre, if_pos hpost]
      have hp : s - idx = 0 := by omega
      rw [hp] at key ⊢
      simp [makeItem]
    · rw [if_neg hpre, if_neg hpost]
      have hp : s - idx = 0 := by omega
      have hm : min text.length (e - idx) = text.length := by omega
      rw [hp, hm] at key ⊢
      simp [makeItem, List.drop_length]

theorem splitItem_nonempty (s e idx : Nat) (text : List Char)
    (oc mc : List String) (os ms : Styles) (hne : text ≠ []) :
    ∀ r ∈ splitItem s e idx text oc mc os ms, r.content ≠ [] := by
  intro r hr
  simp only [splitItem] at hr
  by_cases hout : e ≤ idx ∨ s ≥ idx + text.length
  · rw [if_pos hout] at hr
    simp only [List.mem_singleton] at hr
    subst hr
    exact hne
  · rw [if_neg hout] at hr
    push_neg at hout
    obtain ⟨ho1, ho2⟩ := hout
    have hlen : 0 < text.length := List.length_pos.mpr hne
    have hmle : min text.length (e - idx) ≤ text.length := Nat.min_le_left _ _
    simp only [List.mem_append] at hr
    rcases hr with (hr | hr) | hr
    · by_cases hpre : 0 < s - idx
      · rw [if_pos hpre] at hr
        simp only [List.mem_singleton] at hr
        subst hr
        exact take_ne_nil text (s - idx) hpre hne
      · rw [if_neg hpre] at hr
        simp at hr
    · by_cases hmid : s - idx < min text.length (e - idx)
      · rw [if_pos hmid] at hr
        simp only [List.mem_singleton] at hr
        subst hr
        refine take_ne_nil _ _ (by omega) (drop_ne_nil text (s - idx) (by omega))
      · rw [if_neg hmid] at hr
        simp at hr
    · by_cases hpost : min text.length (e - idx) < text.length
      · rw [if_pos hpost] at hr
        simp only [List.mem_singleton] at hr
        subst hr
        exact drop_ne_nil text _ hpost
      · rw [if_neg hpost] at hr
        simp at hr

theorem splitItem_styles (s e idx : Nat) (text : List Char)
    (oc mc : List String) (os ms : Styles) (hms : ms = os) :
    ∀ r ∈ splitItem s e idx text oc mc os ms, r.styles = os := by
  intro r hr
  simp only [splitItem] at hr
  by_cases hout : e ≤ idx ∨ s ≥ idx + text.length
  · rw [if_pos hout] at hr
    simp only [List.mem_singleton] at hr
    subst hr
    rfl
  · rw [if_neg hout] at hr
    simp only [List.mem_append] at hr
    rcases hr with (hr | hr) | hr
    · by_cases hpre : 0 < s - idx
      · rw [if_pos hpre] at hr
        simp only [List.mem_singleton] at hr
        subst hr
        rfl
      · rw [if_neg hpre] at hr
        simp at hr
    · by_cases hmid : s - idx < min text.length (e - idx)
      · rw [if_pos hmid] at hr
        simp only [List.mem_singleton] at hr
        subst hr
        exact hms
      · rw [if_neg hmid] at hr
        simp at hr
    · by_cases hpost : min text.length (e - idx) < text.length
      · rw [if_pos hpost] at hr
        simp only [List.mem_singleton] at hr
        subst hr
        rfl
      · rw [if_neg hpost] at hr
        simp at hr

theorem lineText_of_nonempty (rs : List Run) (h : ∀ r ∈ rs, r.content ≠ []) :
    lineText rs = (rs.flatMap Run.content).map some := by
  induction rs with
  | nil => rfl
  | cons r rest ih =>
    have hr : r.content ≠ [] := h r (List.mem_cons_self r rest)
    have hempty : r.content.isEmpty = false := by simp [List.isEmpty_eq_false, hr]
    simp [lineText, hempty, ih (fun x hx => h x (List.mem_cons_of_mem r hx))]

theorem stylesSeq_of_const (rs : List Run) (os : Styles)
    (h : ∀ r ∈ rs, r.content ≠ []) (h2 : ∀ r ∈ rs, r.styles = os) :
    stylesSeq rs = (rs.flatMap Run.content).map (fun _ => os) := by
  induction rs with
  | nil => rfl
  | cons r rest ih =>
    have hr : r.content ≠ [] := h r (List.mem_cons_self r rest)
    have hempty : r.content.isEmpty = false := by simp [List.isEmpty_eq_false, hr]
    have hstl : r.styles = os := h2 r (List.mem_cons_self r rest)
    simp [stylesSeq, hempty, hstl,
      ih (fun x hx => h x (List.mem_cons_of_mem r hx))
         (fun x hx => h2 x (List.mem_cons_of_mem r hx))]

theorem splitItem_lineText (s e idx : Nat) (text : List Char)
    (oc mc : List String) (os ms : Styles) (hse : s < e) (hne : text ≠ []) :
    lineText (splitItem s e idx text oc mc os ms) = text.map some := by
  rw [lineText_of_nonempty _ (splitItem_nonempty s e idx text oc mc os ms hne),
    splitItem_flatMap_content s e idx text oc mc os ms hse hne]

theorem splitItem_stylesSeq (s e idx : Nat) (text : List Char)
    (oc mc : List String) (os ms : Styles) (hse : s < e) (hne : text ≠ [])
    (hms : ms = os) :
    stylesSeq (splitItem s e idx text oc mc os ms) = text.map (fun _ => os) := by
  rw [stylesSeq_of_const _ os (splitItem_nonempty s e idx text oc mc os ms hne)
      (splitItem_styles s e idx text oc mc os ms hms),
    splitItem_flatMap_content s e idx text oc mc os ms hse hne]

theorem transformRuns_lineText (s e : Nat)
    (f : List String → Styles → List String × Styles) (hse : s < e) :
    ∀ (rs : List Run) (idx : Nat),
      lineText (transformRuns s e f rs idx).1 = lineText rs := by
  intro rs
  induction rs with
  | nil => intro idx; rfl
  | cons r rest ih =>
    intro idx
    by_cases hbr : r.content.isEmpty = true
    · simp only [transformRuns, hbr, if_true]
      simp [lineText, hbr, ih]
    · have hne : r.content ≠ [] := by
        simpa [List.isEmpty_eq_false] using hbr
      simp only [transformRuns, hbr, Bool.false_eq_true, if_false]
      rw [lineText_append,
        splitItem_lineText s e idx r.content r.className _ r.styles _ hse hne, ih]
      have hempty : r.content.isEmpty = false := by simp [List.isEmpty_eq_false, hne]
      simp [lineText, hempty]

theorem transformRuns_stylesSeq (s e : Nat)
    (f : List String → Styles → List String × Styles) (hse : s < e)
    (hf : ∀ c st, (f c st).2 = st) :
    ∀ (rs : List Run) (idx : Nat),
      stylesSeq (transformRuns s e f rs idx).1 = stylesSeq rs := by
  intro rs
  induction rs with
  | nil => intro idx; rfl
  | cons r rest ih =>
    intro idx
    by_cases hbr : r.content.isEmpty = true
    · simp only [transformRuns, hbr, if_true]
      simp [stylesSeq, hbr, ih]
    · have hne : r.content ≠ [] := by
        simpa [List.isEmpty_eq_false] using hbr
      simp only [transformRuns, hbr, Bool.false_eq_true, if_false]
      rw [stylesSeq_append,
        splitItem_stylesSeq s e idx r.content r.className _ r.styles _ hse hne
          (hf r.className r.styles), ih]
      have hempty : r.content.isEmpty = false := by simp [List.isEmpty_eq_false, hne]
      simp [stylesSeq, hempty]

theorem transformDoc_docText (s e : Nat)
    (f : List String → Styles → List String × Styles) (hse : s < e) :
    ∀ (ls : List Line) (idx : Nat),
      docText (transformDoc s e f ls idx) = docText ls := by
  intro ls
  induction ls with
  | nil => intro idx; rfl
  | cons l rest ih =>
    intro idx
    simp only [transformDoc, docText, List.map_cons]
    rw [mergeAdjacent_lineText, transformRuns_lineText s e f hse]
    exact congrArg _ (ih _)

theorem transformDoc_docStylesSeq (s e : Nat)
    (f : List String → Styles → List String × Styles) (hse : s < e)
    (hf : ∀ c st, (f c st).2 = st) :
    ∀ (ls : List Line) (idx : Nat),
      docStylesSeq (transformDoc s e f ls idx) = docStylesSeq ls := by
  intro ls
  induction ls with
  | nil => intro idx; rfl
  | cons l rest ih =>
    intro idx
    simp only [transformDoc, docStylesSeq, List.map_cons]
    rw [mergeAdjacent_stylesSeq, transformRuns_stylesSeq s e f hse hf]
    exact congrArg _ (ih _)

theorem mergeAdjacent_canonical (l : List Run) :
    canonicalRuns (mergeAdjacent l) = true := by
  cases l with
  | nil => rfl
  | cons a rest => exact mergeAdjGo_canonical rest a

theorem mergeAdjacent_pres (P : List String → Styles → Prop) (l : List Run)
    (h : ∀ r ∈ l, P r.className r.styles) :
    ∀ r ∈ mergeAdjacent l, P r.className r.styles := by
  cases l with
  | nil => intro r hr; simp [mergeAdjacent] at hr
  | cons a rest =>
    exact mergeAdjGo_pres P rest a (h a (List.mem_cons_self a rest))
      (fun x hx => h x (List.mem_cons_of_mem a hx))

theorem transformDoc_canonical (s e : Nat)
    (f : List String → Styles → List String × Styles) :
    ∀ (ls : List Line) (idx : Nat),
      canonicalDoc (transformDoc s e f ls idx) = true := by
  intro ls
  induction ls with
  | nil => intro idx; rfl
  | cons l rest ih =>
    intro idx
    simp only [transformDoc, canonicalDoc, List.all_cons, Bool.and_eq_true]
    exact ⟨mergeAdjacent_canonical _, by simpa [canonicalDoc] using ih _⟩

theorem applyFormat_docText (d : Doc) (s0 e0 : Nat) (cls : List String) (stl : Styles) :
    docText (applyFormat d s0 e0 cls stl) = docText d := by
  unfold applyFormat
  by_cases h : s0 = e0
  · rw [if_pos h]
  · rw [if_neg h]
    exact transformDoc_docText _ _ _ (by omega) d 0

theorem unapplyFormat_docText (d : Doc) (s0 e0 : Nat) (cls : List String) :
    docText (unapplyFormat d s0 e0 cls) = docText d := by
  unfold unapplyFormat
  by_cases h : s0 = e0
  · rw [if_pos h]
  · rw [if_neg h]
    exact transformDoc_docText _ _ _ (by omega) d 0

theorem unapplyFormat_docStylesSeq (d : Doc) (s0 e0 : Nat) (cls : List String)
    (hcls : cls ≠ []) :
    docStylesSeq (unapplyFormat d s0 e0 cls) = docStylesSeq d := by
  have hempty : cls.isEmpty = false := by simp [List.isEmpty_eq_false, hcls]
  unfold unapplyFormat
  by_cases h : s0 = e0
  · rw [if_pos h]
  · rw [if_neg h]
    exact transformDoc_docStylesSeq _ _ _ (by omega)
      (fun c st => by simp [unapplyMid, hempty]) d 0

theorem unapplyAllRuns_lineText (cls : List String) :
    ∀ rs : List Run, lineText (unapplyAllRuns cls rs) = lineText rs := by
  intro rs
  induction rs with
  | nil => rfl
  | cons r rest ih =>
    have hcons : unapplyAllRuns cls (r :: rest) =
        (if r.content.isEmpty then r
         else if cls.isEmpty then { content := r.content, className := [], styles := [] }
         else { content := r.content,
                className := canonClass (removeClasses r.className cls),
                styles := r.styles })
        :: unapplyAllRuns cls rest := rfl
    rw [hcons]
    by_cases hbr : r.content.isEmpty = true
    · rw [if_pos hbr]
      simp only [lineText]
      rw [ih]
    · rw [if_neg hbr]
      by_cases hca : cls.isEmpty = true
      · rw [if_pos hca]
        simp only [lineText]
        rw [ih]
      · rw [if_neg hca]
        simp only [lineText]
        rw [ih]

theorem unapplyAllFormat_docText (d : Doc) (cls : List String) :
    docText (unapplyAllFormat d cls) = docText d := by
  induction d with
  | nil => rfl
  | cons l rest ih =>
    simp only [unapplyAllFormat, docText, List.map_cons] at *
    rw [mergeAdjacent_lineText, unapplyAllRuns_lineText, ih]

theorem unapplyAllFormat_canonical (d : Doc) (cls : List String) :
    canonicalDoc (unapplyAllFormat d cls) = true := by
  induction d with
  | nil => rfl
  | cons l rest ih =>
    simp only [unapplyAllFormat, canonicalDoc, List.map_cons, List.all_cons,
      Bool.and_eq_true] at *
    exact ⟨mergeAdjacent_canonical _, ih⟩

theorem mapLines_runs (lineIdxs : List Nat) (f : Line → Line)
    (hf : ∀ l, (f l).runs = l.runs) :
    ∀ (ls : List Line) (i : Nat),
      (mapLines lineIdxs f ls i).map Line.runs = ls.map Line.runs := by
  intro ls
  induction ls with
  | nil => intro i; rfl
  | cons l rest ih =>
    intro i
    simp only [mapLines, List.map_cons]
    by_cases h : lineIdxs.contains i = true
    · rw [if_pos h]
      simp [hf l, ih]
    · rw [if_neg h]
      simp [ih]

/-- Claim C2 (counterexample): `setContentFromJson` — a public content-import
operation — performs no adjacent-run merge, so loading a line with two
structurally adjacent non-sentinel runs carrying equal (empty) class-token
sets and equal (empty) style maps yields a document violating the claimed
canonical-form invariant. -/
theorem setContentFromJson_not_canonical :
    canonicalDoc (setContentFromJson
      [{ runs := [{ content := ['a'], className := [], styles := [] },
                  { content := ['b'], className := [], styles := [] }],
         lineClassName := [], lineStyles := [] }]) = false := by
  decide

/-- Claim C2 (amended): the run-rewriting formatting transforms
(`applyFormat`, `unapplyFormat` on a non-collapsed range, and
`unapplyAllFormat` unconditionally) re-establish canonical form — no two
structurally adjacent non-sentinel runs in a line with equal canonical
class lists and identical style association lists — and the line-attribute
operations do not touch run lists at all; the import paths
(`setContentFromJson`, `handleInput`) perform no merge. -/
theorem formatTransforms_restore_canonical (d : Doc) (s0 e0 : Nat)
    (lineIdxs : List Nat) (cls : List String) (stl : Styles) (h : s0 ≠ e0) :
    canonicalDoc (applyFormat d s0 e0 cls stl) = true ∧
    canonicalDoc (unapplyFormat d s0 e0 cls) = true ∧
    canonicalDoc (unapplyAllFormat d cls) = true ∧
    (applyFormatOnLine d lineIdxs cls stl).map Line.runs = d.map Line.runs ∧
    (removeFormatFromLine d lineIdxs cls).map Line.runs = d.map Line.runs := by
  refine ⟨?_, ?_, unapplyAllFormat_canonical d cls, ?_, ?_⟩
  · unfold applyFormat
    rw [if_neg h]
    exact transformDoc_canonical _ _ _ d 0
  · unfold unapplyFormat
    rw [if_neg h]
    exact transformDoc_canonical _ _ _ d 0
  · unfold applyFormatOnLine
    by_cases hc : cls.isEmpty = true
    · rw [if_pos hc]
    · rw [if_neg hc]
      refine mapLines_runs _ _ ?_ d 0
      intro l
      rfl
  · unfold removeFormatFromLine
    by_cases hc : cls.isEmpty = true
    · rw [if_pos hc]
      refine mapLines_runs _ _ ?_ d 0
      intro l
      rfl
    · rw [if_neg hc]
      refine mapLines_runs _ _ ?_ d 0
      intro l
      rfl

theorem formatTransforms_restore_canonical_witness :
    (0 : Nat) ≠ 1 ∧
    (canonicalDoc (applyFormat [] 0 1 [] []) = true ∧
     canonicalDoc (unapplyFormat [] 0 1 []) = true ∧
     canonicalDoc (unapplyAllFormat [] []) = true ∧
     (applyFormatOnLine [] [0] [] []).map Line.runs = ([] : Doc).map Line.runs ∧
     (removeFormatFromLine [] [0] []).map Line.runs = ([] : Doc).map Line.runs) :=
  ⟨by decide, formatTransforms_restore_canonical [] 0 1 [0] [] [] (by decide)⟩

/-- Claim C3: `applyFormat`, `unapplyFormat` and `toggleFormat` never change
the content skeleton of the document — the concatenation of run contents
with break-marker positions (`none` entries) and line boundaries (the outer
list) — for any document, any selection range and any class/style
arguments; only class and style attribution changes. -/
theorem formatting_preserves_content (d : Doc) (s0 e0 : Nat)
    (lineIdxs : List Nat) (cls : List String) (stl : Styles) :
    docText (applyFormat d s0 e0 cls stl) = docText d ∧
    docText (unapplyFormat d s0 e0 cls) = docText d ∧
    docText (toggleFormat d s0 e0 lineIdxs cls stl) = docText d := by
  refine ⟨applyFormat_docText d s0 e0 cls stl, unapplyFormat_docText d s0 e0 cls, ?_⟩
  unfold toggleFormat
  by_cases h : lineHasFormat d lineIdxs cls = true
  · rw [if_pos h]
    exact unapplyFormat_docText d s0 e0 cls
  · rw [if_neg h]
    exact applyFormat_docText d s0 e0 cls stl

/-- Claim C4 (counterexample): `unapplyFormat` with a specific token leaves
style maps untouched — a run formatted as `highlight` with style
`background: #ff0` keeps the `background` style key after
`unapplyFormat("highlight")` even though no class token remains, so a style
key with no corresponding active class token IS persisted. -/
theorem unapplyFormat_keeps_styles_cex :
    unapplyFormat
      [{ runs := [{ content := ['a'], className := ["highlight"],
                    styles := [("background", "#ff0")] }],
         lineClassName := [], lineStyles := [] }] 1 2 ["highlight"] =
      [{ runs := [{ content := ['a'], className := [],
                    styles := [("background", "#ff0")] }],
         lineClassName := [], lineStyles := [] }] := by
  decide

/-- Claim C4 (amended): `unapplyFormat(token)` with a non-empty token
removes only class tokens; the per-character style attribution of the whole
document — and its content skeleton — are left exactly unchanged.  Styles
are only stripped by the token-less form; no style-pruning linkage between
style keys and class tokens exists. -/
theorem unapplyFormat_token_styles_unchanged (d : Doc) (s0 e0 : Nat)
    (cls : List String) (hcls : cls ≠ []) :
    docStylesSeq (unapplyFormat d s0 e0 cls) = docStylesSeq d ∧
    docText (unapplyFormat d s0 e0 cls) = docText d :=
  ⟨unapplyFormat_docStylesSeq d s0 e0 cls hcls, unapplyFormat_docText d s0 e0 cls⟩

theorem unapplyFormat_token_styles_unchanged_witness :
    (["highlight"] : List String) ≠ [] ∧
    (docStylesSeq (unapplyFormat
        [{ runs := [{ content := ['a'], className := ["highlight"],
                      styles := [("background", "#ff0")] }],
           lineClassName := [], lineStyles := [] }] 1 2 ["highlight"]) =
      docStylesSeq
        [{ runs := [{ content := ['a'], className := ["highlight"],
                      styles := [("background", "#ff0")] }],
           lineClassName := [], lineStyles := [] }] ∧
     docText (unapplyFormat
        [{ runs := [{ content := ['a'], className := ["highlight"],
                      styles := [("background", "#ff0")] }],
           lineClassName := [], lineStyles := [] }] 1 2 ["highlight"]) =
      docText
        [{ runs := [{ content := ['a'], className := ["highlight"],
                      styles := [("background", "#ff0")] }],
           lineClassName := [], lineStyles := [] }]) :=
  ⟨by decide, unapplyFormat_token_styles_unchanged
    [{ runs := [{ content := ['a'], className := ["highlight"],
                  styles := [("background", "#ff0")] }],
       lineClassName := [], lineStyles := [] }] 1 2 ["highlight"] (by decide)⟩

theorem unapplyAllRuns_cleared (rs : List Run)
    (hwf : ∀ r ∈ rs, r.content = [] → r.className = [] ∧ r.styles = []) :
    ∀ r ∈ unapplyAllRuns [] rs, r.className = [] ∧ r.styles = [] := by
  intro r hr
  simp only [unapplyAllRuns, List.mem_map] at hr
  obtain ⟨r0, hr0, heq⟩ := hr
  by_cases hbr : r0.content.isEmpty = true
  · rw [if_pos hbr] at heq
    subst heq
    exact hwf r0 hr0 (by simpa using hbr)
  · rw [if_neg hbr] at heq
    simp only [List.isEmpty_nil, if_true] at heq
    subst heq
    exact ⟨rfl, rfl⟩

/-- Claim C9: `unapplyAllFormat()` with no token empties every run's class
tokens and styles across the whole document (given the data-model invariant
that break-marker sentinels carry no class/style state), leaves every
line's line-level attributes unchanged, preserves the content skeleton, and
passes the selection range through unchanged. -/
theorem unapplyAllFormat_clears_runs (d : Doc) (sel : Nat × Nat)
    (hwf : ∀ l ∈ d, ∀ r ∈ l.runs, r.content = [] → r.className = [] ∧ r.styles = []) :
    (∀ l ∈ (unapplyAllFormatOp d sel []).1, ∀ r ∈ l.runs,
        r.className = [] ∧ r.styles = []) ∧
    ((unapplyAllFormatOp d sel []).1).map Line.lineClassName =
      d.map Line.lineClassName ∧
    ((unapplyAllFormatOp d sel []).1).map Line.lineStyles = d.map Line.lineStyles ∧
    docText (unapplyAllFormatOp d sel []).1 = docText d ∧
    (unapplyAllFormatOp d sel []).2 = sel := by
  refine ⟨?_, ?_, ?_, unapplyAllFormat_docText d [], rfl⟩
  · intro l hl
    simp only [unapplyAllFormatOp, unapplyAllFormat, List.mem_map] at hl
    obtain ⟨l0, hl0, heq⟩ := hl
    subst heq
    exact mergeAdjacent_pres (fun c st => c = [] ∧ st = []) _
      (unapplyAllRuns_cleared l0.runs (hwf l0 hl0))
  · simp [unapplyAllFormatOp, unapplyAllFormat, List.map_map, Function.comp]
  · simp [unapplyAllFormatOp, unapplyAllFormat, List.map_map, Function.comp]

theorem unapplyAllFormat_clears_runs_witness :
    (∀ l ∈ ([{ runs := [{ content := ['a'], className := ["bold"],
                          styles := [("x", "1")] }],
               lineClassName := ["c"], lineStyles := [("k", "v")] }] : Doc),
      ∀ r ∈ l.runs, r.content = [] → r.className = [] ∧ r.styles = []) ∧
    ((∀ l ∈ (unapplyAllFormatOp
          [{ runs := [{ content := ['a'], className := ["bold"],
                        styles := [("x", "1")] }],
             lineClassName := ["c"], lineStyles := [("k", "v")] }] (2, 2) []).1,
        ∀ r ∈ l.runs, r.className = [] ∧ r.styles = []) ∧
      ((unapplyAllFormatOp
          [{ runs := [{ content := ['a'], className := ["bold"],
                        styles := [("x", "1")] }],
             lineClassName := ["c"], lineStyles := [("k", "v")] }] (2, 2) []).1).map
          Line.lineClassName =
        ([{ runs := [{ content := ['a'], className := ["bold"],
                       styles := [("x", "1")] }],
            lineClassName := ["c"], lineStyles := [("k", "v")] }] : Doc).map
          Line.lineClassName ∧
      ((unapplyAllFormatOp
          [{ runs := [{ content := ['a'], className := ["bold"],
                        styles := [("x", "1")] }],
             lineClassName := ["c"], lineStyles := [("k", "v")] }] (2, 2) []).1).map
          Line.lineStyles =
        ([{ runs := [{ content := ['a'], className := ["bold"],
                       styles := [("x", "1")] }],
            lineClassName := ["c"], lineStyles := [("k", "v")] }] : Doc).map
          Line.lineStyles ∧
      docText (unapplyAllFormatOp
          [{ runs := [{ content := ['a'], className := ["bold"],
                        styles := [("x", "1")] }],
             lineClassName := ["c"], lineStyles := [("k", "v")] }] (2, 2) []).1 =
        docText [{ runs := [{ content := ['a'], className := ["bold"],
                              styles := [("x", "1")] }],
                   lineClassName := ["c"], lineStyles := [("k", "v")] }] ∧
      (unapplyAllFormatOp
          [{ runs := [{ content := ['a'], className := ["bold"],
                        styles := [("x", "1")] }],
             lineClassName := ["c"], lineStyles := [("k", "v")] }] (2, 2) []).2 =
        (2, 2)) :=
  ⟨by decide, unapplyAllFormat_clears_runs
    [{ runs := [{ content := ['a'], className := ["bold"], styles := [("x", "1")] }],
       lineClassName := ["c"], lineStyles := [("k", "v")] }] (2, 2) (by decide)⟩

/-- Claim C1 (code bug, evaluated at the failing input): with a document
whose single line's only run carries `bold` on every character (so
`hasFormat` over the full selection (1,3) is true) but whose LINE attribute
set does not carry `bold`, `toggleFormat("bold")` dispatches on
`lineHasFormat` — which is false — and therefore applies again instead of
removing: the document is returned unchanged, still fully bold, where the
claim (and the source's own doc comment and readme) require the token to be
removed from every character. -/
theorem toggleFormat_bold_selection_not_removed :
    hasFormat [{ runs := [{ content := ['a', 'b'], className := ["bold"],
                            styles := [] }],
                 lineClassName := [], lineStyles := [] }] 1 3 ["bold"] = true ∧
    lineHasFormat [{ runs := [{ content := ['a', 'b'], className := ["bold"],
                                styles := [] }],
                     lineClassName := [], lineStyles := [] }] [0] ["bold"] = false ∧
    toggleFormat [{ runs := [{ content := ['a', 'b'], className := ["bold"],
                               styles := [] }],
                    lineClassName := [], lineStyles := [] }] 1 3 [0] ["bold"] [] =
      [{ runs := [{ content := ['a', 'b'], className := ["bold"], styles := [] }],
         lineClassName := [], lineStyles := [] }] := by
  decide

/-- Claim C5 (code bug, evaluated at the failing input): every selected
line already carries `bold` in its line attribute set, yet
`toggleFormatOnLine("bold")` — which calls `lineHasFormat()` with no
argument, always false — takes the apply branch and leaves the attribute in
place instead of removing it. -/
theorem toggleFormatOnLine_never_removes :
    lineHasFormat [{ runs := [{ content := ['a'], className := [], styles := [] }],
                     lineClassName := ["bold"], lineStyles := [] }] [0] ["bold"] =
      true ∧
    toggleFormatOnLine
        [{ runs := [{ content := ['a'], className := [], styles := [] }],
           lineClassName := ["bold"], lineStyles := [] }] [0] ["bold"] [] =
      [{ runs := [{ content := ['a'], className := [], styles := [] }],
         lineClassName := ["bold"], lineStyles := [] }] := by
  decide

/-- Claim C6 (counterexample): the src/richtext-editor.js constructor
accepts a genuine `HTMLElement` (which has `addEventListener`) that is NOT
content-editable without raising any error, contradicting the claimed
construction precondition. -/
theorem constructor_accepts_noneditable :
    constructorThrows (some { isHTMLElement := true, isContentEditable := false,
                              hasAddEventListener := true }) = false := by
  decide

/-- Claim C6 (amended): only the legacy constructors
(src/unnamed/part_001, part_002) validate the surface — they throw exactly
when the argument is null, not an `HTMLElement`, or not content-editable —
while the current src/richtext-editor.js constructor never checks
editability or element-hood: it throws exactly when the argument is
null/undefined or lacks an `addEventListener` method (the incidental
TypeError of line 20 on a plain object, number or string), and succeeds on
every argument with `addEventListener` — in particular on any
`HTMLElement`, content-editable or not. -/
theorem legacy_constructor_validates :
    (∀ a : SurfaceArg, legacyConstructorThrows (some a) = false ↔
      (a.isHTMLElement = true ∧ a.isContentEditable = true)) ∧
    legacyConstructorThrows none = true ∧
    constructorThrows none = true ∧
    (∀ a : SurfaceArg, constructorThrows (some a) = false ↔
      a.hasAddEventListener = true) := by
  refine ⟨?_, rfl, rfl, ?_⟩
  · intro a
    cases a with
    | mk h c l => cases h <;> cases c <;> simp [legacyConstructorThrows]
  · intro a
    cases a with
    | mk h c l => cases l <;> simp [constructorThrows]

/-- Claim C7 (counterexample): an input with no block containers but with
an inline span container is NOT imported as plain text with markup
stripped: `setContent` wraps it in one line and the span's class survives,
so the resulting document has formatting. -/
theorem setContent_keeps_span_formatting :
    setContent [HNode.inl (INode.span ["bold"] [] ['x'])] =
      [{ runs := [{ content := ['x'], className := ["bold"], styles := [] }],
         lineClassName := [], lineStyles := [] }] := by
  decide

theorem lineText_map_parseChild (l : List INode)
    (hne : ∀ n ∈ l, nodeTextNonempty n = true) :
    lineText (l.map parseChild) = l.flatMap inlineText := by
  induction l with
  | nil => rfl
  | cons n rest ih =>
    have hn := hne n (List.mem_cons_self n rest)
    have htail := ih (fun x hx => hne x (List.mem_cons_of_mem n hx))
    cases n with
    | text s =>
      simp only [nodeTextNonempty, Bool.not_eq_eq_eq_not, Bool.not_true] at hn
      simp [parseChild, lineText, inlineText, hn, htail]
    | span c st s =>
      simp only [nodeTextNonempty, Bool.not_eq_eq_eq_not, Bool.not_true] at hn
      simp [parseChild, lineText, inlineText, hn, htail]
    | br =>
      simp [parseChild, lineText, inlineText, htail]

/-- Claim C7 (amended): for input with no recognizable block containers the
importing is total (never an exception) and wraps everything into a single
line whose runs are the parsed text/span/br children — span class/style
formatting is preserved as parsed, not stripped; when the input consists
solely of text nodes every resulting run is unformatted; the content
skeleton equals the input's text with markup containers removed.  (Inline
nodes are assumed non-degenerate: a span/text with empty text content is
imported as a break marker by the source, a separate quirk.) -/
theorem setContent_no_container_single_line (ns : List HNode)
    (hnd : collectDivs ns = [])
    (hne : ∀ n ∈ asInline ns, nodeTextNonempty n = true) :
    setContent ns =
      [{ runs := (asInline ns).map parseChild,
         lineClassName := [], lineStyles := [] }] ∧
    docText (setContent ns) = [(asInline ns).flatMap inlineText] ∧
    ((∀ n ∈ asInline ns, isTextNode n = true) →
      ∀ r ∈ (asInline ns).map parseChild, r.className = [] ∧ r.styles = []) := by
  have hset : setContent ns =
      [{ runs := (asInline ns).map parseChild,
         lineClassName := [], lineStyles := [] }] := by
    unfold setContent setContentFromHTML
    rw [hnd]
    rfl
  refine ⟨hset, ?_, ?_⟩
  · rw [hset]
    simp only [docText, List.map_cons, List.map_nil]
    rw [lineText_map_parseChild (asInline ns) hne]
  · intro hall r hr
    simp only [List.mem_map] at hr
    obtain ⟨n, hn, heq⟩ := hr
    have := hall n hn
    cases n with
    | text s => subst heq; exact ⟨rfl, rfl⟩
    | span c st s => simp [isTextNode] at this
    | br => subst heq; exact ⟨rfl, rfl⟩

theorem setContent_no_container_single_line_witness :
    collectDivs [HNode.inl (INode.text ['h', 'i'])] = [] ∧
    (∀ n ∈ asInline [HNode.inl (INode.text ['h', 'i'])],
      nodeTextNonempty n = true) ∧
    (setContent [HNode.inl (INode.text ['h', 'i'])] =
      [{ runs := (asInline [HNode.inl (INode.text ['h', 'i'])]).map parseChild,
         lineClassName := [], lineStyles := [] }] ∧
    docText (setContent [HNode.inl (INode.text ['h', 'i'])]) =
      [(asInline [HNode.inl (INode.text ['h', 'i'])]).flatMap inlineText] ∧
    ((∀ n ∈ asInline [HNode.inl (INode.text ['h', 'i'])], isTextNode n = true) →
      ∀ r ∈ (asInline [HNode.inl (INode.text ['h', 'i'])]).map parseChild,
        r.className = [] ∧ r.styles = [])) :=
  ⟨by decide, by decide,
    setContent_no_container_single_line [HNode.inl (INode.text ['h', 'i'])]
      (by decide) (by decide)⟩

/-- Claim C10: with an empty or whitespace-only token string — whose split
token set is empty — the three query operations return false for every
document, every selection range and every selected-line set. -/
theorem empty_token_queries_false (d : Doc) (s0 e0 : Nat) (lineIdxs : List Nat)
    (cls : List String) (h : toClassSet cls = []) :
    hasFormat d s0 e0 cls = false ∧ includesClass d s0 e0 cls = false ∧
    lineHasFormat d lineIdxs cls = false := by
  refine ⟨?_, ?_, ?_⟩
  · simp [hasFormat, h]
  · simp [includesClass, h]
  · simp [lineHasFormat, h]

theorem empty_token_queries_false_witness :
    toClassSet [] = [] ∧
    (hasFormat [] 0 0 [] = false ∧ includesClass [] 0 0 [] = false ∧
      lineHasFormat [] [] [] = false) :=
  ⟨by decide, empty_token_queries_false [] 0 0 [] [] (by decide)⟩

theorem seenSpec_append (s e base : Nat) (xs ys : List Cell) :
    SeenSpec s e base (xs ++ ys) ↔
      SeenSpec s e base xs ∨ SeenSpec s e (base + xs.length) ys := by
  constructor
  · rintro ⟨j, c, hj, hch, h1, h2⟩
    by_cases hlt : j < xs.length
    · exact Or.inl ⟨j, c, by rwa [List.getElem?_append_left hlt] at hj, hch, h1, h2⟩
    · refine Or.inr ⟨j - xs.length, c, ?_, hch, by omega, by omega⟩
      rwa [List.getElem?_append_right (by omega)] at hj
  · rintro (⟨j, c, hj, hch, h1, h2⟩ | ⟨j, c, hj, hch, h1, h2⟩)
    · have hlt : j < xs.length := by
        by_contra hge
        rw [List.getElem?_eq_none (by omega)] at hj
        exact Option.noConfusion hj
      exact ⟨j, c, by rwa [List.getElem?_append_left hlt], hch, h1, h2⟩
    · refine ⟨xs.length + j, c, ?_, hch, by omega, by omega⟩
      rw [List.getElem?_append_right (by omega)]
      simpa using hj

theorem carrySpec_append (req : List String) (s e base : Nat) (xs ys : List Cell) :
    CarrySpec req s e base (xs ++ ys) ↔
      CarrySpec req s e base xs ∧ CarrySpec req s e (base + xs.length) ys := by
  constructor
  · intro h
    refine ⟨fun j c hj hch h1 h2 => ?_, fun j c hj hch h1 h2 => ?_⟩
    · have hlt : j < xs.length := by
        by_contra hge
        rw [List.getElem?_eq_none (by omega)] at hj
        exact Option.noConfusion hj
      exact h j c (by rwa [List.getElem?_append_left hlt]) hch h1 h2
    · refine h (xs.length + j) c ?_ hch (by omega) (by omega)
      rw [List.getElem?_append_right (by omega)]
      simpa using hj
  · rintro ⟨ha, hb⟩ j c hj hch h1 h2
    by_cases hlt : j < xs.length
    · exact ha j c (by rwa [List.getElem?_append_left hlt] at hj) hch h1 h2
    · refine hb (j - xs.length) c ?_ hch (by omega) (by omega)
      rwa [List.getElem?_append_right (by omega)] at hj

theorem seenSpec_nonchar (s e base : Nat) (c0 : Cell) (h : cellIsChar c0 = false) :
    SeenSpec s e base [c0] ↔ False := by
  simp only [iff_false]
  rintro ⟨j, c, hj, hch, h1, h2⟩
  cases j with
  | zero =>
    simp only [List.getElem?_cons_zero, Option.some.injEq] at hj
    subst hj
    rw [h] at hch
    exact Bool.noConfusion hch
  | succ n =>
    rw [List.getElem?_eq_none (by simp)] at hj
    exact Option.noConfusion hj

theorem carrySpec_nonchar (req : List String) (s e base : Nat) (c0 : Cell)
    (h : cellIsChar c0 = false) : CarrySpec req s e base [c0] := by
  intro j c hj hch h1 h2
  cases j with
  | zero =>
    simp only [List.getElem?_cons_zero, Option.some.injEq] at hj
    subst hj
    rw [h] at hch
    exact Bool.noConfusion hch
  | succ n =>
    rw [List.getElem?_eq_none (by simp)] at hj
    exact Option.noConfusion hj

theorem seenSpec_block (s e base : Nat) (cn : List String) (st : Styles)
    (content : List Char) :
    SeenSpec s e base (content.map (Cell.ch cn st)) ↔
      max s base < min e (base + content.length) := by
  constructor
  · rintro ⟨j, c, hj, -, h1, h2⟩
    have hlt : j < content.length := by
      by_contra hge
      rw [List.getElem?_eq_none (by simp; omega)] at hj
      exact Option.noConfusion hj
    omega
  · intro hov
    have hlt : max s base - base < content.length := by omega
    refine ⟨max s base - base, Cell.ch cn st content[max s base - base], ?_, rfl,
      by omega, by omega⟩
    rw [List.getElem?_map, List.getElem?_eq_getElem hlt]
    rfl

theorem carrySpec_block (req : List String) (s e base : Nat) (cn : List String)
    (st : Styles) (content : List Char) :
    CarrySpec req s e base (content.map (Cell.ch cn st)) ↔
      (max s base < min e (base + content.length) →
        req.all (fun t => (toClassSet cn).contains t) = true) := by
  constructor
  · intro h hov
    have hlt : max s base - base < content.length := by omega
    have := h (max s base - base) (Cell.ch cn st content[max s base - base])
      (by rw [List.getElem?_map, List.getElem?_eq_getElem hlt]; rfl) rfl
      (by omega) (by omega)
    simpa [cellCarries] using this
  · intro h j c hj hch h1 h2
    have hlt : j < content.length := by
      by_contra hge
      rw [List.getElem?_eq_none (by simp; omega)] at hj
      exact Option.noConfusion hj
    have hc : c = Cell.ch cn st content[j] := by
      rw [List.getElem?_map, List.getElem?_eq_getElem hlt] at hj
      exact (Option.some.injEq _ _ ▸ hj).symm
    subst hc
    simpa [cellCarries] using h (by omega)

theorem hasFormatRuns_spec (s e : Nat) (req : List String) :
    ∀ (rs : List Run) (idx : Nat),
      (hasFormatRuns s e req rs idx).1 = idx + (rs.flatMap runCells).length ∧
      ((hasFormatRuns s e req rs idx).2.1 = true ↔
        SeenSpec s e idx (rs.flatMap runCells)) ∧
      ((hasFormatRuns s e req rs idx).2.2 = true ↔
        CarrySpec req s e idx (rs.flatMap runCells)) := by
  intro rs
  induction rs with
  | nil =>
    intro idx
    refine ⟨by simp [hasFormatRuns], by simp [hasFormatRuns, SeenSpec], ?_⟩
    simp only [hasFormatRuns, List.flatMap_nil, true_iff]
    intro j c hj
    rw [List.getElem?_eq_none (by simp)] at hj
    exact Option.noConfusion hj
  | cons r rest ih =>
    intro idx
    by_cases hbr : r.content.isEmpty = true
    · have hcells : (r :: rest).flatMap runCells =
          [Cell.brk] ++ rest.flatMap runCells := by
        simp [List.flatMap_cons, runCells, hbr]
      have h1 := ih (idx + 1)
      have heq : hasFormatRuns s e req (r :: rest) idx =
          hasFormatRuns s e req rest (idx + 1) := by
        simp [hasFormatRuns, hbr]
      rw [heq, hcells]
      refine ⟨?_, ?_, ?_⟩
      · rw [h1.1]
        simp
        omega
      · rw [h1.2.1, seenSpec_append]
        have hnc := seenSpec_nonchar s e idx Cell.brk rfl
        simp [hnc]
      · rw [h1.2.2, carrySpec_append]
        have hnc := carrySpec_nonchar req s e idx Cell.brk rfl
        simp [hnc]
    · have hcells : (r :: rest).flatMap runCells =
          r.content.map (Cell.ch r.className r.styles) ++ rest.flatMap runCells := by
        simp [List.flatMap_cons, runCells, hbr]
      have h1 := ih (idx + r.content.length)
      have heq : hasFormatRuns s e req (r :: rest) idx =
          ((hasFormatRuns s e req rest (idx + r.content.length)).1,
           (decide (max s idx < min e (idx + r.content.length)) ||
             (hasFormatRuns s e req rest (idx + r.content.length)).2.1),
           ((!(decide (max s idx < min e (idx + r.content.length))) ||
             req.all (fun t => (toClassSet r.className).contains t)) &&
             (hasFormatRuns s e req rest (idx + r.content.length)).2.2)) := by
        simp [hasFormatRuns, hbr]
      rw [heq, hcells]
      refine ⟨?_, ?_, ?_⟩
      · show (hasFormatRuns s e req rest (idx + r.content.length)).1 = _
        rw [h1.1]
        simp
        omega
      · show (decide (max s idx < min e (idx + r.content.length)) ||
            (hasFormatRuns s e req rest (idx + r.content.length)).2.1) = true ↔ _
        rw [seenSpec_append, Bool.or_eq_true, h1.2.1, seenSpec_block]
        simp [List.length_map]
      · show ((!(decide (max s idx < min e (idx + r.content.length))) ||
            req.all (fun t => (toClassSet r.className).contains t)) &&
            (hasFormatRuns s e req rest (idx + r.content.length)).2.2) = true ↔ _
        rw [carrySpec_append, Bool.and_eq_true, Bool.or_eq_true, h1.2.2,
          carrySpec_block]
        simp only [List.length_map, Bool.not_eq_true', decide_eq_false_iff_not,
          decide_eq_true_eq]
        constructor
        · rintro ⟨hov, hrest⟩
          refine ⟨fun hlt => ?_, hrest⟩
          rcases hov with hno | hcar
          · exact absurd hlt hno
          · exact hcar
        · rintro ⟨himp, hrest⟩
          refine ⟨?_, hrest⟩
          by_cases hlt : max s idx < min e (idx + r.content.length)
          · exact Or.inr (himp hlt)
          · exact Or.inl hlt

theorem hasFormatLines_spec (s e : Nat) (req : List String) :
    ∀ (ls : List Line) (idx : Nat),
      ((hasFormatLines s e req ls idx).1 = true ↔ SeenSpec s e idx (docCells ls)) ∧
      ((hasFormatLines s e req ls idx).2 = true ↔
        CarrySpec req s e idx (docCells ls)) := by
  intro ls
  induction ls with
  | nil =>
    intro idx
    refine ⟨by simp [hasFormatLines, docCells, SeenSpec], ?_⟩
    simp only [hasFormatLines, docCells, List.flatMap_nil, true_iff]
    intro j c hj
    rw [List.getElem?_eq_none (by simp)] at hj
    exact Option.noConfusion hj
  | cons l rest ih =>
    intro idx
    have hruns := hasFormatRuns_spec s e req l.runs (idx + 1)
    have hcells : docCells (l :: rest) =
        [Cell.lineStart] ++ (l.runs.flatMap runCells ++ docCells rest) := by
      simp [docCells, List.flatMap_cons]
    have heq : hasFormatLines s e req (l :: rest) idx =
        ((hasFormatRuns s e req l.runs (idx + 1)).2.1 ||
           (hasFormatLines s e req rest
             (hasFormatRuns s e req l.runs (idx + 1)).1).1,
         (hasFormatRuns s e req l.runs (idx + 1)).2.2 &&
           (hasFormatLines s e req rest
             (hasFormatRuns s e req l.runs (idx + 1)).1).2) := by
      simp [hasFormatLines]
    have hrest := ih (hasFormatRuns s e req l.runs (idx + 1)).1
    rw [heq, hcells]
    constructor
    · show ((hasFormatRuns s e req l.runs (idx + 1)).2.1 ||
          (hasFormatLines s e req rest
            (hasFormatRuns s e req l.runs (idx + 1)).1).1) = true ↔ _
      rw [seenSpec_append, seenSpec_append, Bool.or_eq_true, hruns.2.1, hrest.1,
        hruns.1]
      have hnc := seenSpec_nonchar s e idx Cell.lineStart rfl
      simp only [hnc, List.length_singleton, false_or]
    · show ((hasFormatRuns s e req l.runs (idx + 1)).2.2 &&
          (hasFormatLines s e req rest
            (hasFormatRuns s e req l.runs (idx + 1)).1).2) = true ↔ _
      rw [carrySpec_append, carrySpec_append, Bool.and_eq_true, hruns.2.2, hrest.2,
        hruns.1]
      have hnc := carrySpec_nonchar req s e idx Cell.lineStart rfl
      simp only [hnc, List.length_singleton, true_and]

/-- Claim C8: for a normalized selection and a non-empty token set,
`hasFormat` returns true exactly when the selection is non-collapsed, the
range covers at least one content character of the linear layout, and every
content character in the range carries all required tokens; it is false for
a collapsed selection or when any covered character lacks a token. -/
theorem hasFormat_iff_every_char (d : Doc) (s e : Nat) (cls : List String)
    (hse : s ≤ e) (hcls : toClassSet cls ≠ []) :
    (hasFormat d s e cls = true ↔
      (s ≠ e ∧
       (∃ j c, (docCells d)[j]? = some c ∧ cellIsChar c = true ∧ s ≤ j ∧ j < e) ∧
       (∀ j c, (docCells d)[j]? = some c → cellIsChar c = true → s ≤ j → j < e →
         cellCarries (toClassSet cls) c = true))) := by
  have hmin : min s e = s := Nat.min_eq_left hse
  have hmax : max s e = e := Nat.max_eq_right hse
  by_cases heq : s = e
  · subst heq
    have hf : hasFormat d s s cls = false := by simp [hasFormat]
    rw [hf]
    simp
  · have hclsEmpty : (toClassSet cls).isEmpty = false := by
      simp [List.isEmpty_eq_false, hcls]
    have hlines := hasFormatLines_spec s e (toClassSet cls) d 0
    have hfeq : hasFormat d s e cls =
        ((hasFormatLines s e (toClassSet cls) d 0).1 &&
         (hasFormatLines s e (toClassSet cls) d 0).2) := by
      simp [hasFormat, hmin, hmax, heq, hclsEmpty]
    rw [hfeq, Bool.and_eq_true, hlines.1, hlines.2]
    simp only [SeenSpec, CarrySpec, Nat.zero_add]
    constructor
    · rintro ⟨h1, h2⟩
      exact ⟨heq, h1, h2⟩
    · rintro ⟨-, h1, h2⟩
      exact ⟨h1, h2⟩

theorem hasFormat_iff_every_char_witness :
    (1 : Nat) ≤ 2 ∧ toClassSet ["b"] ≠ [] ∧
    (hasFormat [{ runs := [{ content := ['a', 'c'], className := ["b"],
                             styles := [] }],
                  lineClassName := [], lineStyles := [] }] 1 2 ["b"] = true ↔
      ((1 : Nat) ≠ 2 ∧
       (∃ j c, (docCells [{ runs := [{ content := ['a', 'c'], className := ["b"],
                                       styles := [] }],
                            lineClassName := [], lineStyles := [] }])[j]? = some c ∧
         cellIsChar c = true ∧ 1 ≤ j ∧ j < 2) ∧
       (∀ j c, (docCells [{ runs := [{ content := ['a', 'c'], className := ["b"],
                                       styles := [] }],
                            lineClassName := [], lineStyles := [] }])[j]? = some c →
         cellIsChar c = true → 1 ≤ j → j < 2 →
         cellCarries (toClassSet ["b"]) c = true))) :=
  ⟨by decide, by decide,
    hasFormat_iff_every_char
      [{ runs := [{ content := ['a', 'c'], className := ["b"], styles := [] }],
         lineClassName := [], lineStyles := [] }] 1 2 ["b"] (by decide) (by decide)⟩
